import Mathlib

/-!
# Verification of the `cmdp` console command processor

Shallow embedding of `cmdp.go` (package `cmdp`, WhisperingChaos/cmdp).
Strings are modelled as `List Char` (`Str`); Go `nil`-able values
(pointers, interfaces, errors) are modelled as `Option`; the two
concurrent tasks are modelled by an explicit event list consumed by the
dispatch loop's step function.

Go's `strings.ToLower` lower-cases runes via `unicode.ToLower`; the
embedding implements its action on the ASCII range (`'A'..'Z'` map to
`'a'..'z'`, everything else in ASCII is fixed), which is the fragment
exercised by the package. Go's `strings.TrimSpace` trims the Unicode
White_Space set, reproduced below in full.
-/

/-- Strings of the Go program, modelled as lists of characters. -/
abbrev Str := List Char

/-- `unicode.IsSpace`: Go's White_Space property (`strings.TrimSpace`
trims exactly these characters). -/
def goIsSpace (c : Char) : Bool :=
  c.toNat == 0x20 || c.toNat == 0x09 || c.toNat == 0x0A ||
  c.toNat == 0x0B || c.toNat == 0x0C || c.toNat == 0x0D ||
  c.toNat == 0x85 || c.toNat == 0xA0 || c.toNat == 0x1680 ||
  (0x2000 ≤ c.toNat && c.toNat ≤ 0x200A) ||
  c.toNat == 0x2028 || c.toNat == 0x2029 ||
  c.toNat == 0x202F || c.toNat == 0x205F || c.toNat == 0x3000

/-- `unicode.ToLower` on one character (ASCII action of Go's
`strings.ToLower`). -/
def goToLowerChar (c : Char) : Char :=
  if 65 ≤ c.toNat ∧ c.toNat ≤ 90 then Char.ofNat (c.toNat + 32) else c

/-- `strings.ToLower`. -/
def goToLower (s : Str) : Str := s.map goToLowerChar

/-- Left half of `strings.TrimSpace`. -/
def trimLeft (s : Str) : Str := s.dropWhile goIsSpace

/-- Right half of `strings.TrimSpace`. -/
def trimRight (s : Str) : Str := (s.reverse.dropWhile goIsSpace).reverse

/-- `strings.TrimSpace`: drop leading and trailing White_Space. -/
def trimSpace (s : Str) : Str := trimRight (trimLeft s)

/-- `strings.SplitAfterN(s, " ", 2)`: the slice's first element is the
prefix up to and including the first `' '` (the whole string when there
is no space); the second element, when the space exists, is the rest.
Returned as the first piece together with an optional second piece. -/
def splitAfterSpace2 : Str → Str × Option Str
  | [] => ([], none)
  | c :: rest =>
    if c = ' ' then ([c], some rest)
    else
      let (f, r) := splitAfterSpace2 rest
      (c :: f, r)

/-- `cmdNormalize` (cmdp.go): trim the raw line, split after the first
space character, trim and lower-case the name token, trim the
remainder (empty when the split produced a single piece). -/
def cmdNormalize (cmdln : Str) : Str × Str :=
  let cmdln' := trimSpace cmdln
  let (first, restOpt) := splitAfterSpace2 cmdln'
  let cmdNm := goToLower (trimSpace first)
  match restOpt with
  | none => (cmdNm, [])
  | some rest => (cmdNm, trimSpace rest)

/-- A caller-supplied command definition (`Cdef`, public part).
`Parse` and `Run` are Go interface values, hence nil-able: `Option`.
A parser returns `(args, err)`; a runner returns `err`. -/
structure Cdef where
  NmShort : Str
  NmLong : Str
  ArgDesc : Str
  Help : Str
  Parse : Option (Str → List Str × Option Str)
  Run : Option (List Str → Option Str)

/-- Internal command record (`cdef`, private): the public definition
plus the precomputed lower-cased names. -/
structure CdefL where
  c : Cdef
  nmShortL : Str
  nmLongL : Str

/-- `cmdSelect` (cmdp.go): linear scan; the first entry whose
precomputed lower-cased short or long name equals `cmdNm` is returned,
otherwise the unknown-command error carrying the attempted name. -/
def cmdSelect (cmds : List CdefL) (cmdNm : Str) : Except Str CdefL :=
  match cmds with
  | [] => .error ("Error: unknown command: '".toList ++ cmdNm ++
      "' - try 'h' for help\n".toList)
  | c :: rest =>
    if cmdNm = c.nmShortL ∨ cmdNm = c.nmLongL then .ok c
    else cmdSelect rest cmdNm

/-- `fmt`'s `%s` applied to a nil-able error: a nil Go error prints as
`%!s(<nil>)`, a non-nil one prints its message. -/
def errStr : Option Str → Str
  | none => "%!s(<nil>)".toList
  | some s => s

/-- `errorsConcat` (cmdp.go): `fmt.Errorf("%s%s\n", errs, err)` — the
accumulated error so far (possibly nil), then the new message, then a
newline; always a non-nil error. -/
def errorsConcat (errs : Option Str) (err : Str) : Option Str :=
  some (errStr errs ++ err ++ ['\n'])

/-- `strconv.Itoa` on a non-negative index. -/
def itoa (i : Nat) : Str := (toString i).toList

/-- `cdefVerify` (cmdp.go): per-definition checks. `cdefRef` is the
long name, falling back to `altNm` when the long name is empty; the
missing-long-name check and the short-longer-than-long check sit in an
if / else-if, the parser, runner and help checks are independent ifs,
each accumulating via `errorsConcat`. -/
def cdefVerify (c : Cdef) (altNm : Str) : Option Str :=
  let cdefRef := if c.NmLong = [] then altNm else c.NmLong
  let errs : Option Str := none
  let errs :=
    if c.NmLong = [] then
      errorsConcat errs ("Please specify long command name fo: ".toList ++ cdefRef)
    else if c.NmShort.length > c.NmLong.length then
      errorsConcat errs
        ("Please specify a short name whose length doesn't exceed its corresponding long one for: ".toList ++ cdefRef)
    else errs
  let errs :=
    if c.Parse.isNone then
      errorsConcat errs ("Please specify a Parse function for command: ".toList ++ cdefRef)
    else errs
  let errs :=
    if c.Run.isNone then
      errorsConcat errs ("Please specify a Run function for command: ".toList ++ cdefRef)
    else errs
  if c.Help = [] then
    errorsConcat errs ("Please specify a Help text for command: ".toList ++ cdefRef)
  else errs

/-- The `cdefRef` local of `cdefVerify`: the long name, or the
caller-supplied fallback identifier when the long name is empty. -/
def cdefRef (c : Cdef) (altNm : Str) : Str :=
  if c.NmLong = [] then altNm else c.NmLong

/-- One `if`-guarded accumulation step of `cdefVerify`. -/
def errIf (P : Prop) [Decidable P] (m : Str) (errs : Option Str) :
    Option Str :=
  if P then errorsConcat errs m else errs

/-- The name checks of `cdefVerify` (an if / else-if: the
short-name-length check runs only when the long name is present). -/
def cdefVerifyHead (c : Cdef) (altNm : Str) : Option Str :=
  if c.NmLong = [] then
    errorsConcat none
      ("Please specify long command name fo: ".toList ++ cdefRef c altNm)
  else if c.NmShort.length > c.NmLong.length then
    errorsConcat none
      ("Please specify a short name whose length doesn't exceed its corresponding long one for: ".toList
        ++ cdefRef c altNm)
  else none

/-- The independent parser / runner / help checks of `cdefVerify`,
applied after the name checks. -/
def cdefVerifyTail (c : Cdef) (altNm : Str) (errs0 : Option Str) :
    Option Str :=
  errIf (c.Help = [])
    ("Please specify a Help text for command: ".toList ++ cdefRef c altNm)
    (errIf (c.Run.isNone = true)
      ("Please specify a Run function for command: ".toList ++ cdefRef c altNm)
      (errIf (c.Parse.isNone = true)
        ("Please specify a Parse function for command: ".toList ++ cdefRef c altNm)
        errs0))

/-- The zero value of the internal `cdef` record: on a verification
error, `validate` leaves slot `i` of the table at this value
(`continue` skips the assignment). -/
def zeroCdefL : CdefL :=
  ⟨⟨[], [], [], [], none, none⟩, [], []⟩

/-- One filled slot of the internal table: the public definition plus
its lower-cased names. (The Go loop additionally back-patches a
built-in help runner with a pointer to the table; that wiring mutates
no name, parser or error and is not represented in the pure table.) -/
def mkCdefL (c : Cdef) : CdefL :=
  ⟨c, goToLower c.NmShort, goToLower c.NmLong⟩

/-- The indexed loop body of `validate`: walks the definitions carrying
the element index and the accumulated error; a failing element
contributes its message via `errorsConcat` and leaves its slot at the
zero value, a passing element fills its slot. -/
def validateLoop : List Cdef → Nat → Option Str → List CdefL × Option Str
  | [], _, errs => ([], errs)
  | c :: rest, i, errs =>
    match cdefVerify c (itoa i) with
    | some e =>
      let (tl, es) := validateLoop rest (i + 1) (errorsConcat errs e)
      (zeroCdefL :: tl, es)
    | none =>
      let (tl, es) := validateLoop rest (i + 1) errs
      (mkCdefL c :: tl, es)

/-- The internal command table (`cmds`). -/
structure Cmds where
  cmmds : List CdefL

/-- `validate` (cmdp.go): an empty definition list yields
`(nil, commands-not-defined)`; otherwise the table pointer `cs` is
allocated up front and returned — together with whatever error the
loop accumulated. -/
def validate (cds : List Cdef) : Option Cmds × Option Str :=
  if cds.length < 1 then (none, some "commands not defined".toList)
  else
    let (tbl, errs) := validateLoop cds 0 none
    (some ⟨tbl⟩, errs)

/-- `start` (cmdp.go): on a validation error return `(nil, err)`; on
success allocate the shutdown channel and spawn the dispatch loop over
the validated table. The returned handle is modelled by the table
handed to the spawned loop. -/
def start (cds : List Cdef) : Option (List CdefL) × Option Str :=
  match validate cds with
  | (_, some e) => (none, some e)
  | (some cs, none) => (some cs.cmmds, none)
  | (none, none) => (none, none)

/-- Observable actions of one `cmdParseRun` call: a line written to
stderr, the parser invoked on an input, the runner invoked on
arguments, in order of occurrence. -/
inductive Ev where
  | errOut (msg : Str)
  | parseCall (input : Str)
  | runCall (args : List Str)
deriving DecidableEq

/-- `cmdParseRun` (cmdp.go) as its trace of observable actions:
normalize, select (on error print it and return), parse the string
`cmdNm + " " + cmdArg` (on error print it and return), run the parsed
arguments (on error print it). A nil parser or runner would make the
Go call panic; validated tables never contain one, and the model emits
the actions performed before that point. -/
def cmdParseRun (cmds : List CdefL) (cmdLn : Str) : List Ev :=
  let (cmdNm, cmdArg) := cmdNormalize cmdLn
  match cmdSelect cmds cmdNm with
  | .error e => [.errOut e]
  | .ok cmd =>
    match cmd.c.Parse with
    | none => []
    | some p =>
      let input := cmdNm ++ ' ' :: cmdArg
      let (args, perr) := p input
      match perr with
      | some e => [.parseCall input, .errOut e]
      | none =>
        match cmd.c.Run with
        | none => [.parseCall input]
        | some r =>
          match r args with
          | some e => [.parseCall input, .runCall args, .errOut e]
          | none => [.parseCall input, .runCall args]

/-- One event the dispatch loop's `select` can observe: a line
delivered on the reader channel, closure of the reader channel, or a
boolean received on the shutdown channel. -/
inductive InEv where
  | line (s : Str)
  | closed
  | sig (b : Bool)

/-- The two control states of the dispatch loop. -/
inductive LState where
  | Running
  | Terminated
deriving DecidableEq

/-- What a (partial) run of the dispatch loop did: its control state
after consuming the events, how many times it closed the shutdown
channel, which lines it dispatched, and the concatenated dispatch
traces. -/
structure LoopOut where
  state : LState
  closes : Nat
  dispatched : List Str
  trace : List Ev
deriving DecidableEq

/-- `processCmdLn` (cmdp.go) over an explicit event sequence: a line
is dispatched through `cmdParseRun` and the loop continues; closure of
the line channel or `true` on the shutdown channel returns from the
function, firing the deferred `close(shutdown)` once; `false` on the
shutdown channel does nothing. If the events run out the loop is still
running and has closed nothing. -/
def processCmdLn (cmds : List CdefL) : List InEv → LoopOut
  | [] => ⟨.Running, 0, [], []⟩
  | .closed :: _ => ⟨.Terminated, 1, [], []⟩
  | .line s :: rest =>
    let r := processCmdLn cmds rest
    ⟨r.state, r.closes, s :: r.dispatched, cmdParseRun cmds s ++ r.trace⟩
  | .sig true :: _ => ⟨.Terminated, 1, [], []⟩
  | .sig false :: rest => processCmdLn cmds rest

/-- `pn.Parse` (cmdp.go), the parser produced by `ParseNone`: returns
nil arguments and nil error on every input. -/
def pnParse : Str → List Str × Option Str := fun _ => ([], none)

/-- `runNone.Run` (cmdp_test.go): a runner that always succeeds. -/
def runNone : List Str → Option Str := fun _ => none

/-- The command definition used by `Test_Start_ThenImmediatelyShutdown`
(cmdp_test.go): short name `"t"`, long name `"test"`, `ParseNone`
parser, `runNone` runner. -/
def tCdef : Cdef :=
  ⟨"t".toList, "test".toList, [], "Just a test function!".toList,
    some pnParse, some runNone⟩

/-- A well-formed definition whose short name is the empty string
(legal: the length check only rejects short names longer than the long
name). -/
def qCdef : Cdef :=
  ⟨[], "quit".toList, [], "quit the console".toList,
    some pnParse, some runNone⟩

/-! ## Character-level lemmas -/

theorem char_eq_of_toNat {c d : Char} (h : c.toNat = d.toNat) : c = d := by
  cases c; cases d
  simp_all [Char.toNat, UInt32.toNat]
  congr 1
  apply UInt32.eq_of_toBitVec_eq
  exact BitVec.eq_of_toNat_eq h

theorem char_toNat_ofNat {n : Nat} (h : Nat.isValidChar n) :
    (Char.ofNat n).toNat = n := by
  simp [Char.ofNat, h, Char.toNat, Char.ofNatAux, UInt32.toNat]

theorem goToLowerChar_toNat (c : Char) :
    (goToLowerChar c).toNat =
      if 65 ≤ c.toNat ∧ c.toNat ≤ 90 then c.toNat + 32 else c.toNat := by
  by_cases h : 65 ≤ c.toNat ∧ c.toNat ≤ 90
  · rw [if_pos h]
    unfold goToLowerChar
    rw [if_pos h, char_toNat_ofNat (Or.inl (by omega))]
  · rw [if_neg h]
    unfold goToLowerChar
    rw [if_neg h]

theorem goIsSpace_iff (c : Char) : goIsSpace c = true ↔
    c.toNat = 0x20 ∨ c.toNat = 0x09 ∨ c.toNat = 0x0A ∨ c.toNat = 0x0B ∨
    c.toNat = 0x0C ∨ c.toNat = 0x0D ∨ c.toNat = 0x85 ∨ c.toNat = 0xA0 ∨
    c.toNat = 0x1680 ∨ (0x2000 ≤ c.toNat ∧ c.toNat ≤ 0x200A) ∨
    c.toNat = 0x2028 ∨ c.toNat = 0x2029 ∨ c.toNat = 0x202F ∨
    c.toNat = 0x205F ∨ c.toNat = 0x3000 := by
  simp [goIsSpace, or_assoc]

theorem goIsSpace_false_of_range {c : Char} (h1 : 65 ≤ c.toNat)
    (h2 : c.toNat ≤ 122) : goIsSpace c = false := by
  rcases Bool.eq_false_or_eq_true (goIsSpace c) with h | h
  · exact absurd ((goIsSpace_iff c).mp h) (by omega)
  · exact h

theorem goToLowerChar_eq_self {c : Char} (h : ¬(65 ≤ c.toNat ∧ c.toNat ≤ 90)) :
    goToLowerChar c = c := by
  unfold goToLowerChar
  rw [if_neg h]

theorem goIsSpace_toLowerChar (c : Char) :
    goIsSpace (goToLowerChar c) = goIsSpace c := by
  by_cases h : 65 ≤ c.toNat ∧ c.toNat ≤ 90
  · have hl : (goToLowerChar c).toNat = c.toNat + 32 := by
      rw [goToLowerChar_toNat, if_pos h]
    rw [goIsSpace_false_of_range (c := goToLowerChar c) (by omega) (by omega),
      goIsSpace_false_of_range (by omega) (by omega)]
  · rw [goToLowerChar_eq_self h]

theorem goToLowerChar_idem (c : Char) :
    goToLowerChar (goToLowerChar c) = goToLowerChar c := by
  by_cases h : 65 ≤ c.toNat ∧ c.toNat ≤ 90
  · have hl : (goToLowerChar c).toNat = c.toNat + 32 := by
      rw [goToLowerChar_toNat, if_pos h]
    exact goToLowerChar_eq_self (by omega)
  · rw [goToLowerChar_eq_self h, goToLowerChar_eq_self h]

theorem goToLowerChar_eq_space_iff (c : Char) :
    goToLowerChar c = ' ' ↔ c = ' ' := by
  constructor
  · intro h
    by_cases hu : 65 ≤ c.toNat ∧ c.toNat ≤ 90
    · exfalso
      have hl : (goToLowerChar c).toNat = c.toNat + 32 := by
        rw [goToLowerChar_toNat, if_pos hu]
      rw [h] at hl
      have h32 : (' ').toNat = 32 := by decide
      omega
    · rwa [goToLowerChar_eq_self hu] at h
  · intro h
    subst h
    exact goToLowerChar_eq_self (by decide)

theorem goToLower_idem (s : Str) : goToLower (goToLower s) = goToLower s := by
  unfold goToLower
  rw [List.map_map]
  exact List.map_congr_left fun c _ => goToLowerChar_idem c

theorem goToLower_eq_nil_iff (s : Str) : goToLower s = [] ↔ s = [] := by
  unfold goToLower
  exact List.map_eq_nil_iff

theorem space_not_mem_goToLower {s : Str} (h : ' ' ∉ s) : ' ' ∉ goToLower s := by
  intro hm
  rcases List.mem_map.mp hm with ⟨c, hc, hlc⟩
  exact h ((goToLowerChar_eq_space_iff c).mp hlc ▸ hc)

/-! ## Trim lemmas -/

theorem trimLeft_idem (s : Str) : trimLeft (trimLeft s) = trimLeft s :=
  List.dropWhile_idempotent goIsSpace s

theorem trimRight_idem (s : Str) : trimRight (trimRight s) = trimRight s := by
  unfold trimRight
  rw [List.reverse_reverse, List.dropWhile_idempotent]

theorem trimLeft_fix_iff (s : Str) :
    trimLeft s = s ↔ s = [] ∨ ∃ c t, s = c :: t ∧ goIsSpace c = false := by
  cases s with
  | nil => simp [trimLeft]
  | cons c t =>
    unfold trimLeft
    rw [List.dropWhile_cons]
    by_cases hc : goIsSpace c
    · rw [if_pos hc]
      constructor
      · intro h
        exfalso
        have hlen := congrArg List.length h
        have hle := (List.dropWhile_sublist (l := t) goIsSpace).length_le
        simp only [List.length_cons] at hlen
        omega
      · rintro (h | ⟨c', t', heq, hf⟩)
        · exact absurd h (by simp)
        · rw [List.cons.injEq] at heq
          rw [heq.1] at hc
          rw [hc] at hf
          exact absurd hf (by simp)
    · rw [if_neg hc]
      constructor
      · exact fun _ => Or.inr ⟨c, t, rfl, Bool.eq_false_iff.mpr hc⟩
      · exact fun _ => rfl

theorem trimRight_eq_reverse (s : Str) :
    trimRight s = (trimLeft s.reverse).reverse := rfl

theorem trimRight_fix_iff_rev (s : Str) :
    trimRight s = s ↔ trimLeft s.reverse = s.reverse := by
  rw [trimRight_eq_reverse]
  constructor
  · intro h
    have := congrArg List.reverse h
    rwa [List.reverse_reverse] at this
  · intro h
    rw [h, List.reverse_reverse]

theorem dropWhile_eq_self_of_all {p : Char → Bool} {a : Str}
    (h : ∀ c ∈ a, p c = false) : a.dropWhile p = a := by
  cases a with
  | nil => rfl
  | cons c t =>
    rw [List.dropWhile_cons, if_neg (by simp [h c (List.mem_cons_self c t)])]

theorem trimLeft_eq_self_of_no_space {a : Str}
    (h : ∀ c ∈ a, goIsSpace c = false) : trimLeft a = a :=
  dropWhile_eq_self_of_all h

theorem trimRight_eq_self_of_no_space {a : Str}
    (h : ∀ c ∈ a, goIsSpace c = false) : trimRight a = a := by
  rw [trimRight_fix_iff_rev]
  exact trimLeft_eq_self_of_no_space (fun c hc => h c (List.mem_reverse.mp hc))

theorem trimSpace_eq_self_of_no_space {a : Str}
    (h : ∀ c ∈ a, goIsSpace c = false) : trimSpace a = a := by
  unfold trimSpace
  rw [trimLeft_eq_self_of_no_space h, trimRight_eq_self_of_no_space h]

theorem trimLeft_eq_nil_of_all {a : Str} (h : ∀ c ∈ a, goIsSpace c = true) :
    trimLeft a = [] :=
  List.dropWhile_eq_nil_iff.mpr h

theorem trimRight_eq_nil_of_all {a : Str} (h : ∀ c ∈ a, goIsSpace c = true) :
    trimRight a = [] := by
  unfold trimRight
  rw [List.dropWhile_eq_nil_iff.mpr (fun c hc => h c (List.mem_reverse.mp hc))]
  rfl

theorem trimRight_cons (c : Char) (s : Str) :
    trimRight (c :: s) =
      if trimRight s = [] then (if goIsSpace c then [] else [c])
      else c :: trimRight s := by
  unfold trimRight
  rw [show (c :: s).reverse = s.reverse ++ [c] from by simp,
    List.dropWhile_append]
  by_cases hz : s.reverse.dropWhile goIsSpace = []
  · rw [if_pos (by simp [hz]), if_pos (by simp [hz])]
    by_cases hc : goIsSpace c
    · rw [if_pos hc]
      simp [List.dropWhile_cons, hc]
    · rw [if_neg hc]
      simp [List.dropWhile_cons, hc]
  · rw [if_neg (by simpa using hz), if_neg (by simpa using hz)]
    simp

theorem trimLeft_trimRight_comm (s : Str) :
    trimLeft (trimRight s) = trimRight (trimLeft s) := by
  induction s with
  | nil => rfl
  | cons c s' ih =>
    by_cases hc : goIsSpace c
    · have hl : trimLeft (c :: s') = trimLeft s' := by
        unfold trimLeft
        rw [List.dropWhile_cons, if_pos hc]
      rw [hl, trimRight_cons]
      by_cases hz : trimRight s' = []
      · rw [if_pos hz, if_pos hc]
        have hall : ∀ d ∈ s', goIsSpace d = true := by
          intro d hd
          have := List.dropWhile_eq_nil_iff.mp
            (by simpa [trimRight, List.reverse_eq_nil_iff] using hz)
          exact this d hd
        rw [show trimLeft ([] : Str) = [] from rfl,
          trimLeft_eq_nil_of_all hall, trimRight_eq_nil_of_all (by simp)]
      · rw [if_neg hz]
        have hstep : trimLeft (c :: trimRight s') = trimLeft (trimRight s') := by
          unfold trimLeft
          rw [List.dropWhile_cons, if_pos hc]
        rw [hstep, ih]
    · have hl : trimLeft (c :: s') = c :: s' := by
        unfold trimLeft
        rw [List.dropWhile_cons, if_neg hc]
      rw [hl, trimRight_cons]
      by_cases hz : trimRight s' = []
      · rw [if_pos hz, if_neg hc]
        unfold trimLeft
        rw [List.dropWhile_cons, if_neg hc]
      · rw [if_neg hz]
        unfold trimLeft
        rw [List.dropWhile_cons, if_neg hc]

theorem trimSpace_idem (s : Str) : trimSpace (trimSpace s) = trimSpace s := by
  unfold trimSpace
  rw [trimLeft_trimRight_comm, trimLeft_idem, trimRight_idem]

theorem trimLeft_trimSpace (s : Str) : trimLeft (trimSpace s) = trimSpace s := by
  unfold trimSpace
  rw [trimLeft_trimRight_comm, trimLeft_idem]

theorem trimRight_trimSpace (s : Str) :
    trimRight (trimSpace s) = trimSpace s := by
  unfold trimSpace
  rw [trimRight_idem]

theorem trimSpace_trimRight (s : Str) :
    trimSpace (trimRight s) = trimSpace s := by
  unfold trimSpace
  rw [trimLeft_trimRight_comm, trimRight_idem]

theorem trimSpace_trimLeft (s : Str) :
    trimSpace (trimLeft s) = trimSpace s := by
  unfold trimSpace
  rw [trimLeft_idem]

theorem mem_trimLeft_sub {c : Char} {s : Str} (h : c ∈ trimLeft s) : c ∈ s :=
  (List.dropWhile_sublist goIsSpace).mem h

theorem mem_trimRight_sub {c : Char} {s : Str} (h : c ∈ trimRight s) : c ∈ s := by
  unfold trimRight at h
  have := (List.dropWhile_sublist (l := s.reverse) goIsSpace).mem
    (List.mem_reverse.mp h)
  exact List.mem_reverse.mp this

theorem mem_trimSpace_sub {c : Char} {s : Str} (h : c ∈ trimSpace s) : c ∈ s :=
  mem_trimLeft_sub (mem_trimRight_sub h)

/-! ## More trim lemmas -/

theorem goIsSpace_space : goIsSpace ' ' = true := by decide

theorem trimLeft_cons_of_neg {c : Char} (s : Str) (hc : goIsSpace c = false) :
    trimLeft (c :: s) = c :: s := by
  unfold trimLeft
  rw [List.dropWhile_cons, if_neg (by simp [hc])]

theorem trimRight_eq_nil_iff (s : Str) :
    trimRight s = [] ↔ ∀ c ∈ s, goIsSpace c = true := by
  unfold trimRight
  rw [List.reverse_eq_nil_iff, List.dropWhile_eq_nil_iff]
  constructor
  · exact fun h c hc => h c (List.mem_reverse.mpr hc)
  · exact fun h c hc => h c (List.mem_reverse.mp hc)

theorem trimLeft_eq_nil_iff (s : Str) :
    trimLeft s = [] ↔ ∀ c ∈ s, goIsSpace c = true :=
  List.dropWhile_eq_nil_iff

theorem trimSpace_eq_nil_iff (s : Str) :
    trimSpace s = [] ↔ ∀ c ∈ s, goIsSpace c = true := by
  constructor
  · intro h c hc
    unfold trimSpace at h
    have hall := (trimRight_eq_nil_iff (trimLeft s)).mp h
    rcases List.mem_append.mp
        ((List.takeWhile_append_dropWhile (p := goIsSpace) (l := s)) ▸ hc) with
      hm | hm
    · exact List.mem_takeWhile_imp hm
    · exact hall c hm
  · intro h
    unfold trimSpace
    rw [show trimLeft s = [] from (trimLeft_eq_nil_iff s).mpr h]
    rfl

theorem trimRight_append_allspace {t : Str}
    (ht : ∀ c ∈ t, goIsSpace c = true) (x : Str) :
    trimRight (x ++ t) = trimRight x := by
  unfold trimRight
  rw [List.reverse_append, List.dropWhile_append,
    if_pos (by
      rw [List.isEmpty_iff, List.dropWhile_eq_nil_iff]
      exact fun c hc => ht c (List.mem_reverse.mp hc))]

theorem trimRight_append_of_ne {t : Str} (ht : trimRight t ≠ []) (x : Str) :
    trimRight (x ++ t) = x ++ trimRight t := by
  have hne : t.reverse.dropWhile goIsSpace ≠ [] := by
    intro h
    exact ht (by unfold trimRight; rw [h]; rfl)
  unfold trimRight
  rw [List.reverse_append, List.dropWhile_append,
    if_neg (by simpa [List.isEmpty_iff] using hne), List.reverse_append,
    List.reverse_reverse]

/-! ## Split lemmas -/

theorem splitAfterSpace2_no_space {t : Str} (h : ' ' ∉ t) :
    splitAfterSpace2 t = (t, none) := by
  induction t with
  | nil => rfl
  | cons c rest ih =>
    unfold splitAfterSpace2
    rw [if_neg (by
      intro hc
      exact h (hc ▸ List.mem_cons_self c rest))]
    rw [ih (fun hm => h (List.mem_cons_of_mem c hm))]

theorem splitAfterSpace2_append {a : Str} (b : Str) (h : ' ' ∉ a) :
    splitAfterSpace2 (a ++ ' ' :: b) = (a ++ [' '], some b) := by
  induction a with
  | nil =>
    simp [splitAfterSpace2]
  | cons c a' ih =>
    rw [List.cons_append]
    unfold splitAfterSpace2
    rw [if_neg (by
      intro hc
      exact h (hc ▸ List.mem_cons_self c a'))]
    rw [ih (fun hm => h (List.mem_cons_of_mem c hm))]
    rfl

theorem splitAfterSpace2_spec (t : Str) :
    (' ' ∉ t ∧ splitAfterSpace2 t = (t, none)) ∨
    (∃ a r, t = a ++ ' ' :: r ∧ ' ' ∉ a ∧
      splitAfterSpace2 t = (a ++ [' '], some r)) := by
  by_cases h : ' ' ∈ t
  · right
    induction t with
    | nil => simp at h
    | cons c rest ih =>
      by_cases hc : c = ' '
      · subst hc
        exact ⟨[], rest, rfl, by simp, by simp [splitAfterSpace2]⟩
      · have hmem : ' ' ∈ rest := by
          rcases List.mem_cons.mp h with h' | h'
          · exact absurd h'.symm hc
          · exact h'
        obtain ⟨a, r, heq, hna, hsp⟩ := ih hmem
        refine ⟨c :: a, r, by rw [heq, List.cons_append], ?_, ?_⟩
        · intro hm
          rcases List.mem_cons.mp hm with h' | h'
          · exact hc h'.symm
          · exact hna h'
        · unfold splitAfterSpace2
          rw [if_neg hc, hsp]
          rfl
  · exact Or.inl ⟨h, splitAfterSpace2_no_space h⟩

/-! ## cmdNormalize characterization -/

theorem cmdNormalize_eq_none {s f : Str}
    (h : splitAfterSpace2 (trimSpace s) = (f, none)) :
    cmdNormalize s = (goToLower (trimSpace f), []) := by
  simp only [cmdNormalize]
  rw [h]

theorem cmdNormalize_eq_some {s f r : Str}
    (h : splitAfterSpace2 (trimSpace s) = (f, some r)) :
    cmdNormalize s = (goToLower (trimSpace f), trimSpace r) := by
  simp only [cmdNormalize]
  rw [h]

theorem cmdNormalize_no_space {s : Str} (h : ' ' ∉ trimSpace s) :
    cmdNormalize s = (goToLower (trimSpace s), []) := by
  rw [cmdNormalize_eq_none (splitAfterSpace2_no_space h), trimSpace_idem]

theorem trimSpace_eq_self_of_trim {a : Str} (hl : trimLeft a = a)
    (hr : trimRight a = a) : trimSpace a = a := by
  unfold trimSpace
  rw [hl, hr]

theorem cmdNormalize_token_split {a : Str} (b : Str) (hne : a ≠ [])
    (hsp : ' ' ∉ a) (hl : trimLeft a = a) (hr : trimRight a = a) :
    cmdNormalize (a ++ ' ' :: b) = (goToLower a, trimSpace b) := by
  obtain ⟨c, a', heq, hc⟩ : ∃ c a', a = c :: a' ∧ goIsSpace c = false := by
    rcases (trimLeft_fix_iff a).mp hl with h | ⟨c, a', heq, hc⟩
    · exact absurd h hne
    · exact ⟨c, a', heq, hc⟩
  have hla : ∀ x : Str, trimLeft (a ++ x) = a ++ x := by
    intro x
    rw [heq, List.cons_append, trimLeft_cons_of_neg _ hc]
  by_cases hb : trimSpace b = []
  · have hball : ∀ d ∈ (' ' :: b : Str), goIsSpace d = true := by
      intro d hd
      rcases List.mem_cons.mp hd with h' | h'
      · rw [h']
        exact goIsSpace_space
      · exact (trimSpace_eq_nil_iff b).mp hb d h'
    have htrim : trimSpace (a ++ ' ' :: b) = a := by
      unfold trimSpace
      rw [hla, trimRight_append_allspace hball, hr]
    have hsplit : splitAfterSpace2 (trimSpace (a ++ ' ' :: b)) = (a, none) := by
      rw [htrim]
      exact splitAfterSpace2_no_space hsp
    rw [cmdNormalize_eq_none hsplit, hb, trimSpace_eq_self_of_trim hl hr]
  · have hrb : trimRight b ≠ [] := by
      intro h0
      exact hb ((trimSpace_eq_nil_iff b).mpr ((trimRight_eq_nil_iff b).mp h0))
    have htrim : trimSpace (a ++ ' ' :: b) = a ++ ' ' :: trimRight b := by
      unfold trimSpace
      rw [hla, show a ++ ' ' :: b = (a ++ [' ']) ++ b from by simp,
        trimRight_append_of_ne hrb, List.append_assoc]
      rfl
    have hsplit : splitAfterSpace2 (trimSpace (a ++ ' ' :: b)) =
        (a ++ [' '], some (trimRight b)) := by
      rw [htrim]
      exact splitAfterSpace2_append _ hsp
    have hta : trimSpace (a ++ [' ']) = a := by
      unfold trimSpace
      rw [hla, trimRight_append_allspace (by simp [goIsSpace_space]), hr]
    rw [cmdNormalize_eq_some hsplit, trimSpace_trimRight, hta]

/-! ## goToLower commutes with trimming -/

theorem goIsSpace_comp_toLowerChar :
    (goIsSpace ∘ goToLowerChar) = goIsSpace :=
  funext goIsSpace_toLowerChar

theorem trimLeft_goToLower (s : Str) :
    trimLeft (goToLower s) = goToLower (trimLeft s) := by
  unfold trimLeft goToLower
  rw [List.dropWhile_map, goIsSpace_comp_toLowerChar]

theorem reverse_goToLower (s : Str) :
    (goToLower s).reverse = goToLower s.reverse :=
  (List.map_reverse goToLowerChar s).symm

theorem trimRight_goToLower (s : Str) :
    trimRight (goToLower s) = goToLower (trimRight s) := by
  have h1 : trimRight (goToLower s) =
      (trimLeft ((goToLower s).reverse)).reverse := rfl
  rw [h1, reverse_goToLower, trimLeft_goToLower, reverse_goToLower]
  rfl

theorem trimSpace_goToLower (s : Str) :
    trimSpace (goToLower s) = goToLower (trimSpace s) := by
  unfold trimSpace
  rw [trimLeft_goToLower, trimRight_goToLower]

/-! ## Properties of cmdNormalize output -/

theorem cmdNormalize_props {raw nm arg : Str}
    (h : cmdNormalize raw = (nm, arg)) :
    ' ' ∉ nm ∧ trimLeft nm = nm ∧ trimRight nm = nm ∧ goToLower nm = nm ∧
    trimSpace arg = arg ∧ (nm = [] → arg = []) := by
  rcases splitAfterSpace2_spec (trimSpace raw) with ⟨hns, hsp⟩ |
    ⟨a, r, heq, hna, hsp⟩
  · rw [cmdNormalize_eq_none hsp, trimSpace_idem, Prod.mk.injEq] at h
    obtain ⟨h1, h2⟩ := h
    subst h1
    subst h2
    refine ⟨space_not_mem_goToLower hns, ?_, ?_, goToLower_idem _, rfl,
      fun _ => rfl⟩
    · rw [trimLeft_goToLower, trimLeft_trimSpace]
    · rw [trimRight_goToLower, trimRight_trimSpace]
  · rw [cmdNormalize_eq_some hsp, Prod.mk.injEq] at h
    obtain ⟨h1, h2⟩ := h
    have hlt : trimLeft (trimSpace raw) = trimSpace raw := trimLeft_trimSpace raw
    rcases (trimLeft_fix_iff _).mp hlt with h0 | ⟨c, t', heq2, hc⟩
    · rw [h0] at heq
      exact absurd heq (by simp)
    · obtain ⟨a0, a1, rfl, ha0⟩ : ∃ a0 a1, a = a0 :: a1 ∧ goIsSpace a0 = false := by
        cases a with
        | nil =>
          exfalso
          rw [heq2, List.nil_append] at heq
          injection heq with hch _
          rw [hch, goIsSpace_space] at hc
          exact absurd hc (by simp)
        | cons a0 a1 =>
          rw [heq2, List.cons_append] at heq
          injection heq with hch _
          exact ⟨a0, a1, rfl, by rw [← hch]; exact hc⟩
      have hla : trimLeft (a0 :: a1) = a0 :: a1 := trimLeft_cons_of_neg _ ha0
      have hsa : trimSpace ((a0 :: a1) ++ [' ']) = trimRight (a0 :: a1) := by
        unfold trimSpace
        rw [List.cons_append, trimLeft_cons_of_neg _ ha0, ← List.cons_append,
          trimRight_append_allspace (by simp [goIsSpace_space])]
      rw [hsa] at h1
      have hw_sp : ' ' ∉ trimRight (a0 :: a1) :=
        fun hm => hna (mem_trimRight_sub hm)
      have hw_l : trimLeft (trimRight (a0 :: a1)) = trimRight (a0 :: a1) := by
        rw [trimLeft_trimRight_comm, hla]
      have hw_r : trimRight (trimRight (a0 :: a1)) = trimRight (a0 :: a1) :=
        trimRight_idem _
      have hw_ne : trimRight (a0 :: a1) ≠ [] := by
        intro h0
        have := (trimRight_eq_nil_iff _).mp h0 a0 (List.mem_cons_self _ _)
        rw [this] at ha0
        exact absurd ha0 (by simp)
      subst h1
      subst h2
      refine ⟨space_not_mem_goToLower hw_sp, ?_, ?_, goToLower_idem _,
        trimSpace_idem _, ?_⟩
      · rw [trimLeft_goToLower, hw_l]
      · rw [trimRight_goToLower, hw_r]
      · intro h0
        exact absurd ((goToLower_eq_nil_iff _).mp h0) hw_ne

/-! ## Claim theorems: normalization (C4, C8) -/

/-- C8: `cmdNormalize` is idempotent — whenever normalizing a raw line
yields the pair `(nm, arg)`, normalizing the reassembled string
`nm ++ " " ++ arg` yields the same pair. -/
theorem claim_C8_normalize_idempotent (raw nm arg : Str)
    (h : cmdNormalize raw = (nm, arg)) :
    cmdNormalize (nm ++ ' ' :: arg) = (nm, arg) := by
  obtain ⟨F1, F2, F3, F4, F5, F6⟩ := cmdNormalize_props h
  by_cases hz : nm = []
  · subst hz
    rw [F6 rfl]
    decide
  · rw [cmdNormalize_token_split arg hz F1 F2 F3, F4, F5]

/-- Witness for C8: instantiated at the line `"  Run   Away  \n"`,
whose normalization is `("run", "Away")`. -/
theorem claim_C8_witness :
    cmdNormalize ("run".toList ++ ' ' :: "Away".toList) =
      ("run".toList, "Away".toList) :=
  claim_C8_normalize_idempotent "  Run   Away  \n".toList _ _ (by decide)

/-- C4 counterexample: the claim asserts splitting happens on any
whitespace run, a tab included; but `cmdNormalize` splits only after
the first space character (U+0020), so `"Run\tAway\n"` keeps the tab
inside the command name (`"run\taway"`, empty remainder) instead of
producing name `"run"` with remainder `"Away"`. -/
theorem claim_C4_counterexample :
    cmdNormalize "Run\tAway\n".toList ≠ ("run".toList, "Away".toList) ∧
    cmdNormalize "Run\tAway\n".toList = ("run\taway".toList, []) := by
  constructor
  · decide
  · decide

/-- C4 (amended): `cmdNormalize` trims leading and trailing whitespace
and splits at the first space character only: the spec's example
`"  Run   Away  \n" ↦ ("run", "Away")` holds; a line of the form
`a ++ " " ++ b` with a whitespace-free nonempty token `a` yields the
lower-cased `a` and the trimmed `b`; a line containing no space
character at all (even one with tabs inside) yields the whole trimmed,
lower-cased line as the command name and an empty remainder. -/
theorem claim_C4_amended :
    cmdNormalize "  Run   Away  \n".toList = ("run".toList, "Away".toList) ∧
    (∀ a b : Str, a ≠ [] → (∀ c ∈ a, goIsSpace c = false) →
      cmdNormalize (a ++ ' ' :: b) = (goToLower a, trimSpace b)) ∧
    (∀ s : Str, ' ' ∉ s → cmdNormalize s = (goToLower (trimSpace s), [])) := by
  refine ⟨by decide, ?_, ?_⟩
  · intro a b hne ha
    have hsp : ' ' ∉ a := by
      intro hm
      have := ha ' ' hm
      rw [goIsSpace_space] at this
      exact absurd this (by simp)
    exact cmdNormalize_token_split b hne hsp (trimLeft_eq_self_of_no_space ha)
      (trimRight_eq_self_of_no_space ha)
  · intro s hs
    exact cmdNormalize_no_space (fun hm => hs (mem_trimSpace_sub hm))

/-- Witness for the amended C4, at the line `"echo Hi there"`. -/
theorem claim_C4_witness :
    cmdNormalize ("Echo".toList ++ ' ' :: " Hi There ".toList) =
      (goToLower "Echo".toList, trimSpace " Hi There ".toList) :=
  claim_C4_amended.2.1 "Echo".toList " Hi There ".toList (by decide) (by decide)

/-! ## Dispatch loop lemmas (C7, C1, C9) -/

theorem processCmdLn_state_closes (cmds : List CdefL) (evs : List InEv) :
    ((processCmdLn cmds evs).state = .Terminated ∧
      (processCmdLn cmds evs).closes = 1) ∨
    ((processCmdLn cmds evs).state = .Running ∧
      (processCmdLn cmds evs).closes = 0) := by
  induction evs with
  | nil => exact Or.inr ⟨rfl, rfl⟩
  | cons e rest ih =>
    cases e with
    | line s =>
      simp only [processCmdLn]
      exact ih
    | closed => exact Or.inl ⟨rfl, rfl⟩
    | sig b =>
      cases b with
      | true => exact Or.inl ⟨rfl, rfl⟩
      | false =>
        simp only [processCmdLn]
        exact ih

/-- The dispatch loop over a pure stream of lines: every line is
dispatched in order through `cmdParseRun`, the loop stays Running and
never closes the shutdown channel. -/
theorem processCmdLn_lines (cmds : List CdefL) (lines : List Str) :
    processCmdLn cmds (lines.map .line) =
      ⟨.Running, 0, lines, lines.flatMap (cmdParseRun cmds)⟩ := by
  induction lines with
  | nil => rfl
  | cons l rest ih =>
    simp only [List.map_cons, processCmdLn, ih, List.flatMap_cons]

/-- C7: the dispatch loop is a two-state machine. Receiving `false` on
the shutdown channel is a no-op; receiving `true`, or observing the
line channel closed, terminates the loop; the loop has closed the
shutdown channel exactly once precisely when it has terminated, and
has closed it zero times while still running. -/
theorem claim_C7_loop_state_machine (cmds : List CdefL) (evs : List InEv) :
    processCmdLn cmds (.sig false :: evs) = processCmdLn cmds evs ∧
    (processCmdLn cmds (.sig true :: evs)).state = .Terminated ∧
    (processCmdLn cmds (.closed :: evs)).state = .Terminated ∧
    ((processCmdLn cmds evs).state = .Terminated ↔
      (processCmdLn cmds evs).closes = 1) ∧
    ((processCmdLn cmds evs).state = .Running ↔
      (processCmdLn cmds evs).closes = 0) := by
  refine ⟨rfl, rfl, rfl, ?_, ?_⟩ <;>
    rcases processCmdLn_state_closes cmds evs with ⟨h1, h2⟩ | ⟨h1, h2⟩ <;>
      rw [h1, h2] <;> simp

/-- C1: the per-line pipeline of `cmdParseRun` — on a select error the
only action is reporting it (no parse, no run); when the parser is
invoked it receives exactly `commandName ++ " " ++ remainder`; a parse
error is reported and the runner is not invoked; a run error is
reported after the run; and the loop dispatches every line of the
stream in order, remaining Running whatever each line's outcome. -/
theorem claim_C1_dispatch_pipeline (cmds : List CdefL) (cmdLn : Str) :
    (∀ e, cmdSelect cmds (cmdNormalize cmdLn).1 = .error e →
      cmdParseRun cmds cmdLn = [.errOut e]) ∧
    (∀ cmd, cmdSelect cmds (cmdNormalize cmdLn).1 = .ok cmd →
      ∀ p, cmd.c.Parse = some p →
        (∀ args e,
          p ((cmdNormalize cmdLn).1 ++ ' ' :: (cmdNormalize cmdLn).2) =
            (args, some e) →
          cmdParseRun cmds cmdLn =
            [.parseCall
              ((cmdNormalize cmdLn).1 ++ ' ' :: (cmdNormalize cmdLn).2),
             .errOut e]) ∧
        (∀ args,
          p ((cmdNormalize cmdLn).1 ++ ' ' :: (cmdNormalize cmdLn).2) =
            (args, none) →
          ∀ r, cmd.c.Run = some r →
            (∀ e, r args = some e →
              cmdParseRun cmds cmdLn =
                [.parseCall
                  ((cmdNormalize cmdLn).1 ++ ' ' :: (cmdNormalize cmdLn).2),
                 .runCall args, .errOut e]) ∧
            (r args = none →
              cmdParseRun cmds cmdLn =
                [.parseCall
                  ((cmdNormalize cmdLn).1 ++ ' ' :: (cmdNormalize cmdLn).2),
                 .runCall args]))) ∧
    (∀ lines : List Str,
      (processCmdLn cmds (lines.map .line)).dispatched = lines ∧
      (processCmdLn cmds (lines.map .line)).trace =
        lines.flatMap (cmdParseRun cmds) ∧
      (processCmdLn cmds (lines.map .line)).state = .Running) := by
  rcases hn : cmdNormalize cmdLn with ⟨nm, arg⟩
  refine ⟨?_, ?_, ?_⟩
  · intro e hsel
    simp only [cmdParseRun, hn] at *
    rw [hsel]
  · intro cmd hsel p hp
    simp only [hn] at hsel
    constructor
    · intro args e hparse
      simp only [hn] at hparse
      simp only [cmdParseRun, hn, hsel, hp, hparse]
    · intro args hparse r hr
      simp only [hn] at hparse
      constructor
      · intro e hrun
        simp only [cmdParseRun, hn, hsel, hp, hparse, hr, hrun]
      · intro hrun
        simp only [cmdParseRun, hn, hsel, hp, hparse, hr, hrun]
  · intro lines
    rw [processCmdLn_lines]
    exact ⟨rfl, rfl, rfl⟩

/-- Witness for C1: an unknown command on an empty table reports the
selection error and nothing else. -/
theorem claim_C1_witness :
    cmdParseRun [] "bogus\n".toList =
      [.errOut "Error: unknown command: 'bogus' - try 'h' for help\n".toList] :=
  (claim_C1_dispatch_pipeline [] "bogus\n".toList).1 _ rfl

/-- C9: the `ParseNone` parser accepts every input, returning nil
arguments and nil error; consequently a selected command using it never
yields a parse diagnostic and its runner is always invoked with the
empty argument list. -/
theorem claim_C9_parse_none (cmds : List CdefL) (cmdLn : Str) (cmd : CdefL)
    (r : List Str → Option Str)
    (hsel : cmdSelect cmds (cmdNormalize cmdLn).1 = .ok cmd)
    (hp : cmd.c.Parse = some pnParse) (hr : cmd.c.Run = some r) :
    (∀ t : Str, pnParse t = ([], none)) ∧
    cmdParseRun cmds cmdLn =
      .parseCall ((cmdNormalize cmdLn).1 ++ ' ' :: (cmdNormalize cmdLn).2) ::
      .runCall [] ::
      (match r [] with
       | some e => [.errOut e]
       | none => []) := by
  rcases hn : cmdNormalize cmdLn with ⟨nm, arg⟩
  simp only [hn] at hsel
  refine ⟨fun _ => rfl, ?_⟩
  simp only [cmdParseRun, hn, hsel, hp, hr, pnParse]
  cases r [] <;> rfl

/-- Witness for C9: the test table's single `test` command, fed the
line `"TEST\n"`. -/
theorem claim_C9_witness :
    (∀ t : Str, pnParse t = ([], none)) ∧
    cmdParseRun [mkCdefL tCdef] "TEST\n".toList =
      [.parseCall "test ".toList, .runCall []] :=
  claim_C9_parse_none [mkCdefL tCdef] "TEST\n".toList (mkCdefL tCdef)
    runNone rfl rfl rfl

/-! ## Validator lemmas (C2, C3, C5, C6, C10) -/

theorem errorsConcat_ne_none (errs : Option Str) (e : Str) :
    errorsConcat errs e ≠ none := by
  simp [errorsConcat]

theorem cdefVerify_eq_none_iff (c : Cdef) (altNm : Str) :
    cdefVerify c altNm = none ↔
      c.NmLong ≠ [] ∧ ¬(c.NmShort.length > c.NmLong.length) ∧
      c.Parse ≠ none ∧ c.Run ≠ none ∧ c.Help ≠ [] := by
  by_cases h1 : c.NmLong = [] <;>
    by_cases h2 : c.NmShort.length > c.NmLong.length <;>
      by_cases h3 : c.Parse = none <;>
        by_cases h4 : c.Run = none <;>
          by_cases h5 : c.Help = [] <;>
            simp [cdefVerify, errorsConcat, h1, h2, h3, h4, h5,
              Option.isNone_iff_eq_none]

theorem validateLoop_snd_none {cds : List Cdef} {i : Nat} {errs : Option Str}
    (h : (validateLoop cds i errs).2 = none) :
    errs = none ∧ (validateLoop cds i errs).1 = cds.map mkCdefL ∧
    ∀ c ∈ cds, ∃ nm, cdefVerify c nm = none := by
  induction cds generalizing i errs with
  | nil => exact ⟨h, rfl, by simp⟩
  | cons c rest ih =>
    rcases hv : cdefVerify c (itoa i) with _ | e
    · rcases hrec : validateLoop rest (i + 1) errs with ⟨tl, es⟩
      have hred : validateLoop (c :: rest) i errs = (mkCdefL c :: tl, es) := by
        simp [validateLoop, hv, hrec]
      rw [hred] at h
      have h' : (validateLoop rest (i + 1) errs).2 = none := by
        rw [hrec]
        exact h
      obtain ⟨he, htl, hall⟩ := ih h'
      rw [hrec] at htl
      refine ⟨he, ?_, ?_⟩
      · rw [hred]
        show mkCdefL c :: tl = _
        rw [List.map_cons, ← htl]
      · intro d hd
        rcases List.mem_cons.mp hd with rfl | hd'
        · exact ⟨itoa i, hv⟩
        · exact hall d hd'
    · rcases hrec : validateLoop rest (i + 1) (errorsConcat errs e) with ⟨tl, es⟩
      have hred : validateLoop (c :: rest) i errs = (zeroCdefL :: tl, es) := by
        simp [validateLoop, hv, hrec]
      rw [hred] at h
      have h' : (validateLoop rest (i + 1) (errorsConcat errs e)).2 = none := by
        rw [hrec]
        exact h
      obtain ⟨he, _, _⟩ := ih h'
      exact absurd he (errorsConcat_ne_none errs e)

theorem validateLoop_all_ok {cds : List Cdef} {i : Nat}
    (h : ∀ p ∈ cds.enumFrom i, cdefVerify p.2 (itoa p.1) = none) :
    validateLoop cds i none = (cds.map mkCdefL, none) := by
  induction cds generalizing i with
  | nil => rfl
  | cons c rest ih =>
    have hc : cdefVerify c (itoa i) = none :=
      h (i, c) (List.mem_cons_self _ _)
    have ht := ih (i := i + 1)
      (fun p hp => h p (List.mem_cons_of_mem _ hp))
    simp [validateLoop, hc, ht]

theorem validate_some_none {cds : List Cdef} {tbl : Cmds}
    (hv : validate cds = (some tbl, none)) :
    tbl.cmmds = cds.map mkCdefL ∧ ∀ c ∈ cds, ∃ nm, cdefVerify c nm = none := by
  by_cases hz : cds.length < 1
  · rw [show validate cds = (none, some "commands not defined".toList) from by
      unfold validate; rw [if_pos hz]] at hv
    exact absurd (congrArg Prod.fst hv) (by simp)
  · rcases hL : validateLoop cds 0 none with ⟨tl, es⟩
    have : validate cds = (some ⟨tl⟩, es) := by
      unfold validate
      rw [if_neg hz, hL]
    rw [this, Prod.mk.injEq] at hv
    obtain ⟨h1, h2⟩ := hv
    have hsnd : (validateLoop cds 0 none).2 = none := by
      rw [hL]
      exact h2
    obtain ⟨_, htl, hall⟩ := validateLoop_snd_none hsnd
    rw [hL] at htl
    refine ⟨?_, hall⟩
    rw [← Option.some.injEq _ _ |>.mp h1]
    exact htl

/-- C5: `cmdSelect` is exactly the first-match linear scan: its result
is determined by `List.find?` over the predicate "the attempted name
equals the entry's lower-cased short or long name" (so duplicates
resolve to the earlier entry), and a miss returns the unknown-command
error carrying the attempted name; entries of a successfully validated
table carry the lower-cased forms of their definition's names, making
the match case-insensitive. -/
theorem claim_C5_select_scan (cmds : List CdefL) (nm : Str) :
    cmdSelect cmds nm =
      (match List.find?
          (fun c => decide (nm = c.nmShortL ∨ nm = c.nmLongL)) cmds with
        | some c => Except.ok c
        | none => Except.error ("Error: unknown command: '".toList ++ nm ++
            "' - try 'h' for help\n".toList)) ∧
    (∀ cds tbl, validate cds = (some tbl, none) →
      ∀ e ∈ tbl.cmmds, e.nmShortL = goToLower e.c.NmShort ∧
        e.nmLongL = goToLower e.c.NmLong) := by
  constructor
  · induction cmds with
    | nil => rfl
    | cons c rest ih =>
      by_cases h : nm = c.nmShortL ∨ nm = c.nmLongL
      · unfold cmdSelect
        rw [if_pos h, List.find?_cons_of_pos _ (by simpa using h)]
      · unfold cmdSelect
        rw [if_neg h, List.find?_cons_of_neg _ (by simpa using h)]
        exact ih
  · intro cds tbl hv e he
    obtain ⟨htl, _⟩ := validate_some_none hv
    rw [htl] at he
    obtain ⟨d, _, rfl⟩ := List.mem_map.mp he
    exact ⟨rfl, rfl⟩

/-- Witness for C5: the single-entry test table resolves `"test"`
(entered in any case) to its entry, whose stored names are the
lower-cased forms. -/
theorem claim_C5_witness :
    (mkCdefL tCdef).nmShortL = goToLower (mkCdefL tCdef).c.NmShort ∧
    (mkCdefL tCdef).nmLongL = goToLower (mkCdefL tCdef).c.NmLong :=
  (claim_C5_select_scan [] []).2 [tCdef] ⟨[mkCdefL tCdef]⟩ rfl
    (mkCdefL tCdef) (List.mem_cons_self _ _)

/-- C6: `start` on the empty definition list returns a nil shutdown
handle and the commands-not-defined error without spawning the loop;
on any non-empty, well-formed list it returns a non-nil handle (the
table handed to the spawned loop) and a nil error. -/
theorem claim_C6_start :
    start [] = (none, some "commands not defined".toList) ∧
    (∀ cds : List Cdef, cds ≠ [] →
      (∀ p ∈ cds.enumFrom 0, cdefVerify p.2 (itoa p.1) = none) →
      start cds = (some (cds.map mkCdefL), none)) := by
  constructor
  · rfl
  · intro cds hne hall
    have hpos : 0 < cds.length := List.length_pos.mpr hne
    have hL := validateLoop_all_ok hall
    have hv : validate cds = (some ⟨cds.map mkCdefL⟩, none) := by
      unfold validate
      rw [if_neg (by omega), hL]
    simp [start, hv]

/-- Witness for C6: the test's one-command table starts cleanly. -/
theorem claim_C6_witness :
    start [tCdef] = (some [mkCdefL tCdef], none) :=
  claim_C6_start.2 [tCdef] (by simp) (by decide)

/-! ## Error accumulation lemmas (C2, C3) -/

theorem cdefVerify_decompose (c : Cdef) (altNm : Str) :
    cdefVerify c altNm = cdefVerifyTail c altNm (cdefVerifyHead c altNm) := rfl

theorem errStr_errorsConcat (errs : Option Str) (m : Str) :
    errStr (errorsConcat errs m) = errStr errs ++ m ++ ['\n'] := rfl

theorem errStr_pref_errorsConcat (errs : Option Str) (m : Str) :
    errStr errs <+: errStr (errorsConcat errs m) := by
  rw [errStr_errorsConcat, List.append_assoc]
  exact List.prefix_append _ _

theorem isInf_of_isPref {l₁ l₂ l₃ : Str} (h₁ : l₁ <:+: l₂)
    (h₂ : l₂ <+: l₃) : l₁ <:+: l₃ :=
  h₁.trans h₂.isInfix

theorem errStr_pref_errIf (P : Prop) [Decidable P] (m : Str)
    (errs : Option Str) : errStr errs <+: errStr (errIf P m errs) := by
  unfold errIf
  by_cases h : P
  · rw [if_pos h]
    exact errStr_pref_errorsConcat errs m
  · rw [if_neg h]

theorem msg_inf_errorsConcat (errs : Option Str) (m : Str) :
    m <:+: errStr (errorsConcat errs m) :=
  ⟨errStr errs, ['\n'], by rw [errStr_errorsConcat]⟩

theorem msg_inf_errIf_pos (P : Prop) [Decidable P] (m : Str)
    (errs : Option Str) (h : P) : m <:+: errStr (errIf P m errs) := by
  unfold errIf
  rw [if_pos h]
  exact msg_inf_errorsConcat errs m

theorem inf_mono_errIf (P : Prop) [Decidable P] (m : Str)
    (errs : Option Str) {x : Str} (h : x <:+: errStr errs) :
    x <:+: errStr (errIf P m errs) :=
  isInf_of_isPref h (errStr_pref_errIf P m errs)

theorem msg_inf_tail {x : Str} {errs0 : Option Str}
    (h : x <:+: errStr errs0) (c : Cdef) (altNm : Str) :
    x <:+: errStr (cdefVerifyTail c altNm errs0) :=
  inf_mono_errIf _ _ _ (inf_mono_errIf _ _ _ (inf_mono_errIf _ _ _ h))

theorem errStr_pref_validateLoop (cds : List Cdef) (i : Nat)
    (errs : Option Str) :
    errStr errs <+: errStr (validateLoop cds i errs).2 := by
  induction cds generalizing i errs with
  | nil => exact List.prefix_refl _
  | cons c rest ih =>
    rcases hv : cdefVerify c (itoa i) with _ | e
    · rcases hrec : validateLoop rest (i + 1) errs with ⟨tl, es⟩
      have hred : validateLoop (c :: rest) i errs = (mkCdefL c :: tl, es) := by
        simp [validateLoop, hv, hrec]
      rw [hred]
      have := ih (i + 1) errs
      rw [hrec] at this
      exact this
    · rcases hrec : validateLoop rest (i + 1) (errorsConcat errs e) with ⟨tl, es⟩
      have hred : validateLoop (c :: rest) i errs = (zeroCdefL :: tl, es) := by
        simp [validateLoop, hv, hrec]
      rw [hred]
      have := ih (i + 1) (errorsConcat errs e)
      rw [hrec] at this
      exact (errStr_pref_errorsConcat errs e).trans this

theorem validateLoop_err_inf (cds : List Cdef) (i : Nat)
    (errs : Option Str) :
    ∀ p ∈ cds.enumFrom i, ∀ e, cdefVerify p.2 (itoa p.1) = some e →
      e <:+: errStr (validateLoop cds i errs).2 := by
  induction cds generalizing i errs with
  | nil => simp [List.enumFrom]
  | cons c rest ih =>
    intro p hp e he
    rcases hv : cdefVerify c (itoa i) with _ | e0
    · rcases hrec : validateLoop rest (i + 1) errs with ⟨tl, es⟩
      have hred : validateLoop (c :: rest) i errs = (mkCdefL c :: tl, es) := by
        simp [validateLoop, hv, hrec]
      rw [hred]
      rcases List.mem_cons.mp hp with rfl | hp'
      · exact absurd he (by simp [hv])
      · have := ih (i + 1) errs p hp' e he
        rw [hrec] at this
        exact this
    · rcases hrec : validateLoop rest (i + 1) (errorsConcat errs e0) with ⟨tl, es⟩
      have hred : validateLoop (c :: rest) i errs = (zeroCdefL :: tl, es) := by
        simp [validateLoop, hv, hrec]
      rw [hred]
      rcases List.mem_cons.mp hp with rfl | hp'
      · have he0 : e = e0 := by
          rw [hv] at he
          exact (Option.some.injEq _ _ ▸ he).symm ▸ rfl
        subst he0
        have hpre := errStr_pref_validateLoop rest (i + 1) (errorsConcat errs e)
        rw [hrec] at hpre
        exact isInf_of_isPref (msg_inf_errorsConcat errs e) hpre
      · have := ih (i + 1) (errorsConcat errs e0) p hp' e he
        rw [hrec] at this
        exact this

/-! ## Claim theorems: validator (C2, C3, C10) -/

/-- C2 counterexample: a definition with an empty long name and a
short name longer than it receives only the missing-long-name
diagnostic — the short-name-length violation is not reported, because
the two name checks are an if / else-if, refuting the claim that every
definition is checked independently for all five violations. -/
theorem claim_C2_counterexample :
    (⟨"x".toList, [], [], "h".toList, some pnParse, some runNone⟩ :
      Cdef).NmLong = [] ∧
    ("x".toList).length > ([] : Str).length ∧
    cdefVerify ⟨"x".toList, [], [], "h".toList, some pnParse, some runNone⟩
        "0".toList =
      some "%!s(<nil>)Please specify long command name fo: 0\n".toList ∧
    ¬ ("Please specify a short name whose length doesn't exceed its corresponding long one for: ".toList <:+:
        errStr (cdefVerify
          ⟨"x".toList, [], [], "h".toList, some pnParse, some runNone⟩
          "0".toList)) := by
  refine ⟨rfl, by decide, by decide, ?_⟩
  intro h
  exact absurd h.length_le (by decide)

/-- C2 (amended): per definition, the missing-long-name check (with
the index fallback identifier) and the short-longer-than-long check
are mutually exclusive — when the long name is missing the short name
is ignored entirely; the parser, runner and help checks are
independent, each reported whenever violated; `cdefVerify` is error
free exactly when all five constraints hold; and `validate`
accumulates every failing element's message into the one combined
error, never short-circuiting on the first bad entry. -/
theorem claim_C2_amended :
    (∀ (c : Cdef) (altNm s : Str), c.NmLong = [] →
      cdefVerify { c with NmShort := s } altNm = cdefVerify c altNm) ∧
    (∀ (c : Cdef) (altNm : Str), c.NmLong = [] →
      ("Please specify long command name fo: ".toList ++ altNm) <:+:
        errStr (cdefVerify c altNm)) ∧
    (∀ (c : Cdef) (altNm : Str), c.NmLong ≠ [] →
      c.NmShort.length > c.NmLong.length →
      ("Please specify a short name whose length doesn't exceed its corresponding long one for: ".toList
        ++ c.NmLong) <:+: errStr (cdefVerify c altNm)) ∧
    (∀ (c : Cdef) (altNm : Str), c.Parse = none →
      ("Please specify a Parse function for command: ".toList
        ++ cdefRef c altNm) <:+: errStr (cdefVerify c altNm)) ∧
    (∀ (c : Cdef) (altNm : Str), c.Run = none →
      ("Please specify a Run function for command: ".toList
        ++ cdefRef c altNm) <:+: errStr (cdefVerify c altNm)) ∧
    (∀ (c : Cdef) (altNm : Str), c.Help = [] →
      ("Please specify a Help text for command: ".toList
        ++ cdefRef c altNm) <:+: errStr (cdefVerify c altNm)) ∧
    (∀ (c : Cdef) (altNm : Str), cdefVerify c altNm = none ↔
      c.NmLong ≠ [] ∧ ¬(c.NmShort.length > c.NmLong.length) ∧
      c.Parse ≠ none ∧ c.Run ≠ none ∧ c.Help ≠ []) ∧
    (∀ cds : List Cdef, ∀ p ∈ cds.enumFrom 0, ∀ e,
      cdefVerify p.2 (itoa p.1) = some e →
      e <:+: errStr (validate cds).2) := by
  refine ⟨?_, ?_, ?_, ?_, ?_, ?_, fun c altNm => cdefVerify_eq_none_iff c altNm, ?_⟩
  · intro c altNm s h
    rw [cdefVerify_decompose, cdefVerify_decompose]
    show cdefVerifyTail c altNm (cdefVerifyHead { c with NmShort := s } altNm) =
      cdefVerifyTail c altNm (cdefVerifyHead c altNm)
    congr 1
    unfold cdefVerifyHead
    have h' : ({ c with NmShort := s } : Cdef).NmLong = [] := h
    rw [if_pos h', if_pos h]
    rfl
  · intro c altNm h
    rw [cdefVerify_decompose]
    apply msg_inf_tail _ c altNm
    unfold cdefVerifyHead
    rw [if_pos h, show cdefRef c altNm = altNm from by unfold cdefRef; rw [if_pos h]]
    exact msg_inf_errorsConcat _ _
  · intro c altNm h h2
    rw [cdefVerify_decompose]
    apply msg_inf_tail _ c altNm
    unfold cdefVerifyHead
    rw [if_neg h, if_pos h2,
      show cdefRef c altNm = c.NmLong from by unfold cdefRef; rw [if_neg h]]
    exact msg_inf_errorsConcat _ _
  · intro c altNm h
    rw [cdefVerify_decompose]
    unfold cdefVerifyTail
    exact inf_mono_errIf _ _ _ (inf_mono_errIf _ _ _
      (msg_inf_errIf_pos _ _ _ (by simp [h])))
  · intro c altNm h
    rw [cdefVerify_decompose]
    unfold cdefVerifyTail
    exact inf_mono_errIf _ _ _
      (msg_inf_errIf_pos _ _ _ (by simp [h]))
  · intro c altNm h
    rw [cdefVerify_decompose]
    unfold cdefVerifyTail
    exact msg_inf_errIf_pos _ _ _ h
  · intro cds p hp e he
    have hne : cds ≠ [] := by
      intro h0
      rw [h0] at hp
      simp [List.enumFrom] at hp
    rcases hL : validateLoop cds 0 none with ⟨tl, es⟩
    have hv : validate cds = (some ⟨tl⟩, es) := by
      unfold validate
      rw [if_neg (by have := List.length_pos.mpr hne; omega), hL]
    rw [hv]
    have := validateLoop_err_inf cds 0 none p hp e he
    rw [hL] at this
    exact this

/-- Witness for the amended C2: a definition missing its parser is
reported with the parser message. -/
theorem claim_C2_witness :
    ("Please specify a Parse function for command: ".toList
      ++ cdefRef ⟨[], "cmd".toList, [], "h".toList, none, some runNone⟩
          "3".toList) <:+:
      errStr (cdefVerify ⟨[], "cmd".toList, [], "h".toList, none, some runNone⟩
        "3".toList) :=
  claim_C2_amended.2.2.2.1
    ⟨[], "cmd".toList, [], "h".toList, none, some runNone⟩ "3".toList rfl

/-- C3 counterexample: on a non-empty input with a violation,
`validate` returns the combined error together with a NON-nil
(partially built, zero-filled) table — not the nil table the claim
asserts. -/
theorem claim_C3_counterexample :
    validate [⟨"x".toList, [], [], "h".toList, some pnParse, some runNone⟩] =
      (some ⟨[zeroCdefL]⟩,
        some "%!s(<nil>)%!s(<nil>)Please specify long command name fo: 0\n\n".toList) ∧
    some (⟨[zeroCdefL]⟩ : Cmds) ≠ (none : Option Cmds) := by
  exact ⟨rfl, by simp⟩

/-- C3 (amended): for non-empty input, `validate` always hands back a
non-nil table — even alongside an accumulated error (the slots of
failing entries left at the zero value); it is `start` that discards
the table on error and returns the nil handle with the combined error,
so no partially-built table reaches `Start`'s caller. -/
theorem claim_C3_amended :
    (∀ cds : List Cdef, cds ≠ [] → (validate cds).1 ≠ none) ∧
    (∀ (cds : List Cdef) (e : Str), (validate cds).2 = some e →
      start cds = (none, some e)) := by
  constructor
  · intro cds hne
    rcases hL : validateLoop cds 0 none with ⟨tl, es⟩
    have hv : validate cds = (some ⟨tl⟩, es) := by
      unfold validate
      rw [if_neg (by have := List.length_pos.mpr hne; omega), hL]
    rw [hv]
    simp
  · intro cds e he
    rcases hv : validate cds with ⟨tb, er⟩
    rw [hv] at he
    have : er = some e := he
    subst this
    unfold start
    rw [hv]
    cases tb <;> rfl

/-- Witness for the amended C3 at a one-element malformed table. -/
theorem claim_C3_witness :
    start [⟨"x".toList, [], [], "h".toList, some pnParse, some runNone⟩] =
      (none,
        some "%!s(<nil>)%!s(<nil>)Please specify long command name fo: 0\n\n".toList) :=
  claim_C3_amended.2
    [⟨"x".toList, [], [], "h".toList, some pnParse, some runNone⟩] _ rfl

/-! ## Claim theorems: blank-line dispatch (C10) -/

theorem cmdSelect_empty_name {cds : List Cdef}
    (hlong : ∀ c ∈ cds, c.NmLong ≠ []) :
    ∀ c0, List.find? (fun c => decide (c.NmShort = [])) cds = some c0 →
      cmdSelect (cds.map mkCdefL) [] = .ok (mkCdefL c0) := by
  induction cds with
  | nil =>
    intro c0 h
    simp at h
  | cons c rest ih =>
    intro c0 h
    by_cases hs : c.NmShort = []
    · rw [List.find?_cons_of_pos _ (by simpa using hs)] at h
      obtain rfl : c = c0 := by
        exact Option.some.injEq _ _ ▸ h
      rw [List.map_cons]
      unfold cmdSelect
      rw [if_pos (Or.inl (by
        show ([] : Str) = (mkCdefL c).nmShortL
        unfold mkCdefL
        rw [hs]
        rfl))]
    · rw [List.find?_cons_of_neg _ (by simpa using hs)] at h
      rw [List.map_cons]
      unfold cmdSelect
      rw [if_neg (by
        rintro (h1 | h2)
        · exact hs ((goToLower_eq_nil_iff c.NmShort).mp h1.symm)
        · exact hlong c (List.mem_cons_self _ _)
            ((goToLower_eq_nil_iff c.NmLong).mp h2.symm))]
      exact ih (fun d hd => hlong d (List.mem_cons_of_mem _ hd)) c0 h

/-- C10: in a successfully validated table containing an entry whose
short name is the empty string, a whitespace-only line normalizes to
the empty command name and `cmdSelect` resolves it to the first such
entry instead of returning the unknown-command error, so blank lines
are dispatched to that command. -/
theorem claim_C10_blank_line (cds : List Cdef) (tbl : Cmds)
    (hv : validate cds = (some tbl, none)) (line : Str)
    (hline : ∀ ch ∈ line, goIsSpace ch = true)
    (c0 : Cdef)
    (h0 : List.find? (fun c => decide (c.NmShort = [])) cds = some c0) :
    cmdNormalize line = ([], []) ∧
    cmdSelect tbl.cmmds [] = .ok (mkCdefL c0) := by
  constructor
  · have ht : trimSpace line = [] := (trimSpace_eq_nil_iff line).mpr hline
    rw [cmdNormalize_eq_none (by rw [ht]; rfl)]
    rfl
  · obtain ⟨htl, hall⟩ := validate_some_none hv
    have hlong : ∀ c ∈ cds, c.NmLong ≠ [] := by
      intro c hc
      obtain ⟨nm, hnm⟩ := hall c hc
      exact ((cdefVerify_eq_none_iff c nm).mp hnm).1
    rw [htl]
    exact cmdSelect_empty_name hlong c0 h0

/-- Witness for C10: a table with one empty-short-name command and the
blank line `" \t"`. -/
theorem claim_C10_witness :
    cmdNormalize " \t".toList = ([], []) ∧
    cmdSelect (Cmds.mk [mkCdefL qCdef]).cmmds [] = .ok (mkCdefL qCdef) :=
  claim_C10_blank_line [qCdef] ⟨[mkCdefL qCdef]⟩ rfl " \t".toList
    (by decide) qCdef rfl

